import Mathlib

/-!
A verification development for `server.go`.

The handlers of the content server are embedded as pure functions:

* a Go `string` is a Lean `String`, read as its list of runes;
* the file system a handler reads is an explicit argument: a tree of
  `Node`s for the directory walks, a `FileSystem` of lookup results for
  `serveTemplate`;
* a handler that can stop with a run-time panic (an index out of range)
  returns an `Option`, `none` being the panic;
* what a handler writes is a `Response` value or the `PageData` handed to
  the template engine.

The functions of the Go library that the handlers call are modelled by what
they compute: `strings`, `path/filepath` with `/` as the separator,
`filepath.Walk` on a tree whose entries can all be read, and a
`bufio.Scanner` with its buffer of 64 KiB, which stops at a word that does
not fit. The Unicode
case and category tables of Go's `unicode` package are taken as a parameter
(`UnicodeTables`) for runes above ASCII; on ASCII the functions are the
explicit fast paths of the Go library.
-/

namespace Server

/-! ## Runes -/

/-- Tables of Go's `unicode` package, consulted only for runes above U+007F. -/
structure UnicodeTables where
  /-- The lower case mapping `unicode.ToLower`. -/
  lower : Char → Char
  /-- The title case mapping `unicode.ToTitle`. -/
  title : Char → Char
  /-- The category test `unicode.IsLetter`. -/
  letter : Char → Bool
  /-- The category test `unicode.IsDigit`. -/
  digit : Char → Bool

/-- Tables that leave every rune above ASCII unchanged and uncategorised;
used to evaluate the handlers on ASCII inputs, where no table is read. -/
def asciiTables : UnicodeTables :=
  ⟨fun r => r, fun r => r, fun _ => false, fun _ => false⟩

/-- White space as `bufio.ScanWords` and `unicode.IsSpace` define it. -/
def isSpace (r : Char) : Bool :=
  let n := r.toNat
  n == 0x20 || (0x09 ≤ n && n ≤ 0x0D) || n == 0x85 || n == 0xA0 ||
  n == 0x1680 || (0x2000 ≤ n && n ≤ 0x200A) || n == 0x2028 || n == 0x2029 ||
  n == 0x202F || n == 0x205F || n == 0x3000

/-- Go's `unicode.ToLower`: the ASCII fast path, the table beyond it. -/
def toLowerRune (U : UnicodeTables) (r : Char) : Char :=
  if r.toNat ≤ 0x7F then
    if 0x41 ≤ r.toNat ∧ r.toNat ≤ 0x5A then Char.ofNat (r.toNat + 32) else r
  else U.lower r

/-- Go's `unicode.ToTitle`: the ASCII fast path, the table beyond it. -/
def toTitleRune (U : UnicodeTables) (r : Char) : Char :=
  if r.toNat ≤ 0x7F then
    if 0x61 ≤ r.toNat ∧ r.toNat ≤ 0x7A then Char.ofNat (r.toNat - 32) else r
  else U.title r

/-- The word-boundary test `isSeparator` of Go's `strings` package. -/
def isSeparator (U : UnicodeTables) (r : Char) : Bool :=
  let n := r.toNat
  if n ≤ 0x7F then
    !((0x30 ≤ n && n ≤ 0x39) || (0x61 ≤ n && n ≤ 0x7A) || (0x41 ≤ n && n ≤ 0x5A) || n == 0x5F)
  else if U.letter r || U.digit r then false
  else isSpace r

/-! ## The `strings` functions the handlers call -/

/-- Go's `strings.Contains`: `substr` occurs in `s`. -/
def stringsContains (s substr : String) : Bool :=
  s.data.tails.any (fun t => substr.data.isPrefixOf t)

/-- Go's `strings.HasPrefix`. -/
def stringsHasPrefix (s pre : String) : Bool :=
  pre.data.isPrefixOf s.data

/-- Go's `strings.ToLower`: every rune mapped by `unicode.ToLower`. -/
def stringsToLower (U : UnicodeTables) (s : String) : String :=
  ⟨s.data.map (toLowerRune U)⟩

/-- The rune mapping of `strings.Title`, `prev` being the rune before. -/
def titleRunes (U : UnicodeTables) : Char → List Char → List Char
  | _, [] => []
  | prev, r :: rs =>
    (if isSeparator U prev then toTitleRune U r else r) :: titleRunes U r rs

/-- Go's `strings.Title`: the first rune of every word in title case. -/
def stringsTitle (U : UnicodeTables) (s : String) : String :=
  ⟨titleRunes U ' ' s.data⟩

/-- Splitting a rune list at every occurrence of `sep`. -/
def splitRunes (sep : Char) : List Char → List (List Char)
  | [] => [[]]
  | c :: cs =>
    if c = sep then [] :: splitRunes sep cs
    else
      match splitRunes sep cs with
      | [] => [[c]]
      | p :: ps => (c :: p) :: ps

/-- Go's `strings.Split(s, sep)` for a separator of one rune. -/
def stringsSplit (s : String) (sep : Char) : List String :=
  (splitRunes sep s.data).map String.mk

/-- Go's `strings.ReplaceAll(s, old, new)` for an `old` of one rune. -/
def stringsReplaceAll (s : String) (old : Char) (new : String) : String :=
  ⟨s.data.flatMap (fun c => if c = old then new.data else [c])⟩

/-- Go's `strings.Join`. -/
def stringsJoin : List String → String → String
  | [], _ => ""
  | [a], _ => a
  | a :: b :: rest, sep => a ++ sep ++ stringsJoin (b :: rest) sep

/-- Go's `strings.TrimLeft`: leading runes that belong to `cutset` removed. -/
def stringsTrimLeft (s cutset : String) : String :=
  ⟨s.data.dropWhile (fun c => cutset.data.contains c)⟩

/-- Go's `strings.TrimRight`: trailing runes that belong to `cutset` removed. -/
def stringsTrimRight (s cutset : String) : String :=
  ⟨(s.data.reverse.dropWhile (fun c => cutset.data.contains c)).reverse⟩

/-- Go's `strings.TrimPrefix`. -/
def stringsTrimPrefix (s pre : String) : String :=
  if pre.data.isPrefixOf s.data then ⟨s.data.drop pre.data.length⟩ else s

/-- Go's `strings.TrimSuffix`. -/
def stringsTrimSuffix (s suf : String) : String :=
  if suf.data.reverse.isPrefixOf s.data.reverse then
    ⟨s.data.take (s.data.length - suf.data.length)⟩
  else s

/-- The number of bytes of a rune in UTF-8. -/
def runeLen (r : Char) : Nat :=
  if r.toNat < 0x80 then 1 else if r.toNat < 0x800 then 2 else if r.toNat < 0x10000 then 3 else 4

/-- Go's `len(s)`: the number of bytes of a string. -/
def byteLen (s : String) : Nat :=
  (s.data.map runeLen).sum

/-- The words `bufio.ScanWords` splits a text into, each with the number of
bytes of what ends it: the white-space rune after the word, or one byte
where the text ends; `cur` is the word being read, in reverse. -/
def wordsFrom : List Char → List Char → List (String × Nat)
  | [], cur => if cur.isEmpty then [] else [(⟨cur.reverse⟩, 1)]
  | c :: cs, cur =>
    if isSpace c then
      if cur.isEmpty then wordsFrom cs [] else (⟨cur.reverse⟩, runeLen c) :: wordsFrom cs []
    else wordsFrom cs (c :: cur)

/-- Go's `bufio.MaxScanTokenSize`, the size to which the buffer of a
`bufio.Scanner` grows. -/
def maxScanTokenSize : Nat := 64 * 1024

/-- A word fits the buffer of the scanner, together with what ends it; the
scanner needs both in the buffer to yield the word. -/
def fitsBuffer (w : String × Nat) : Bool :=
  decide (byteLen w.1 + w.2 ≤ maxScanTokenSize)

/-- The tokens the loop `for scanner.Scan()` reads from a text, with a
`bufio.Scanner` that splits by `bufio.ScanWords`: the words of the text up
to the first one that does not fit the buffer, where `Scan` returns false
(the error `bufio.ErrTooLong`, which the handler does not read). -/
def scanWords (text : String) : List String :=
  ((wordsFrom text.data []).takeWhile fitsBuffer).map (fun w => w.1)

/-- The white-space-separated words of a text, all of them. -/
def allWords (text : String) : List String :=
  (wordsFrom text.data []).map (fun w => w.1)

/-! ## Paths -/

/-- The elements `filepath.Clean` keeps, `out` holding those kept so far,
last first: empty and `.` elements are dropped, a `..` element removes the
element before it, is dropped at the root of a rooted path, and is kept at
the start of a relative one. -/
def cleanElements (rooted : Bool) : List String → List String → List String
  | [], out => out.reverse
  | e :: es, out =>
    if e = "" || e = "." then cleanElements rooted es out
    else if e = ".." then
      match out with
      | [] => if rooted then cleanElements rooted es [] else cleanElements rooted es [".."]
      | top :: below =>
        if top = ".." then cleanElements rooted es (".." :: top :: below)
        else cleanElements rooted es below
    else cleanElements rooted es (e :: out)

/-- Go's `filepath.Clean`, with `/` as the separator. -/
def filepathClean (path : String) : String :=
  if path = "" then "."
  else
    let rooted := stringsHasPrefix path "/"
    let body := stringsJoin (cleanElements rooted (stringsSplit path '/') []) "/"
    if rooted then "/" ++ body
    else if body = "" then "." else body

/-- Go's `filepath.Join`: the elements from the first non-empty one on,
joined with the separator and cleaned. -/
def filepathJoin : List String → String
  | [] => ""
  | e :: es => if e = "" then filepathJoin es else filepathClean (stringsJoin (e :: es) "/")

/-! ## The file system the directory walks read -/

/-- An entry of a directory tree. A file carries its content, `none` when
the file cannot be opened; a directory carries its entries in the order
`Readdirnames` lists them. -/
inductive Node where
  | file (name : String) (content : Option String)
  | dir (name : String) (entries : List Node)

/-- What `info.Name()` returns for an entry. -/
def Node.name : Node → String
  | .file n _ => n
  | .dir n _ => n

/-- Whether `info.IsDir()` holds for an entry. -/
def Node.isDir : Node → Bool
  | .file _ _ => false
  | .dir _ _ => true

/-- The order of Go strings, `a < b`: lexicographic on the runes. -/
def lessRunes : List Char → List Char → Bool
  | _, [] => false
  | [], _ :: _ => true
  | a :: as, b :: bs => a.toNat < b.toNat || (a.toNat == b.toNat && lessRunes as bs)

/-- One step of sorting the entries of a directory by name. -/
def insertByName {α : Type} (x : String × α) : List (String × α) → List (String × α)
  | [] => [x]
  | y :: ys => if lessRunes x.1.data y.1.data then x :: y :: ys else y :: insertByName x ys

/-- The `sort.Strings(names)` of `filepath.Walk`, on entries keyed by name. -/
def sortByName {α : Type} (xs : List (String × α)) : List (String × α) :=
  xs.foldr insertByName []

mutual
/-- The calls `filepath.Walk` makes to its callback from `path`, in order:
the entry itself, then, for a directory, the walks of its entries in the
lexical order of their names, the path of an entry being
`filepath.Join(path, name)`, which is `path`, a slash and `name` for the
name of a directory entry. -/
def walk (path : String) : Node → List (String × Node)
  | .file n c => [(path, .file n c)]
  | .dir n es => (path, .dir n es) :: (sortByName (walkEntries path es)).flatMap (fun p => p.2)
/-- The walk of every entry of the directory at `path`, keyed by name. -/
def walkEntries (path : String) : List Node → List (String × List (String × Node))
  | [] => []
  | e :: es => (e.name, walk (path ++ "/" ++ e.name) e) :: walkEntries path es
end

/-! ## Page data -/

/-- Go's `CollectionLink`. -/
structure CollectionLink where
  Name : String
  Path : String
  Image : String
  ImgCount : Nat
deriving DecidableEq

/-- Go's `BlogLink`. -/
structure BlogLink where
  Name : String
  Path : String
  Text : String
deriving DecidableEq

/-- Go's `DocumentMatch`. -/
structure DocumentMatch where
  Name : String
  Path : String
  MatchingWords : String
deriving DecidableEq

/-- Go's `PageData`. -/
structure PageData where
  Links : List CollectionLink := []
  BlogLinks : List BlogLink := []
  Title : String := ""
  ImageColumnOne : List String := []
  ImageColumnTwo : List String := []
  FoundDocuments : List DocumentMatch := []
deriving DecidableEq

/-! ## `serveQuery` -/

/-- The files `serveQuery` collects: the walked paths under `templates`
that contain `index.html`, each with its entry. -/
def indexFiles (templates : List Node) : List (String × Node) :=
  (walk "templates" (.dir "templates" templates)).filter
    (fun v => stringsContains v.1 "index.html")

/-- The tokens the scanner reads after `os.Open(file)`: the words of a file
that opens, none from a file that does not open or from a directory. -/
def fileTokens : Node → List String
  | .file _ (some text) => scanWords text
  | .file _ none => []
  | .dir _ _ => []

/-- The loop `for _, str := range search`: whether it reaches the `append`
(and the `break`) for the token `text`. -/
def anyTermIn (U : UnicodeTables) (text : String) : List String → Bool
  | [] => false
  | str :: rest =>
    if stringsContains (stringsToLower U text) (stringsToLower U str) then true
    else anyTermIn U text rest

/-- The loop `for scanner.Scan()`, from the tokens left and the `matching`
collected so far. -/
def scanMatching (U : UnicodeTables) (search : List String) :
    List String → List String → List String
  | [], matching => matching
  | text :: more, matching =>
    if stringsContains text "\x7b" || stringsContains text "\x7d" then
      scanMatching U search more matching
    else if anyTermIn U text search then
      scanMatching U search more (matching ++ [text])
    else scanMatching U search more matching

/-- The slash-normalised path `strings.ReplaceAll(file, "\\", "/")`. -/
def slashPath (file : String) : String :=
  stringsReplaceAll file '\\' "/"

/-- The `DocumentMatch` built for a file with a non-empty `matching`;
`none` when `parts[len(parts)-2]` is out of range. -/
def documentMatch (U : UnicodeTables) (file : String) (matching : List String) :
    Option DocumentMatch :=
  let parts := stringsSplit (slashPath file) '/'
  if 2 ≤ parts.length then
    let title := stringsTitle U (parts.getD (parts.length - 2) "")
    let title := if title = "Templates" then "Home" else title
    let path := stringsTrimRight (stringsTrimLeft (slashPath file) "templates\\") ".index.html"
    some { Name := title, Path := path,
           MatchingWords := "Contains: " ++ stringsJoin matching ", " }
  else none

/-- The loop `for _, file := range files`, from the files left and the
matches `found` so far. -/
def searchFiles (U : UnicodeTables) (search : List String) :
    List (String × Node) → List DocumentMatch → Option (List DocumentMatch)
  | [], found => some found
  | (file, node) :: rest, found =>
    let matching := scanMatching U search (fileTokens node) []
    if 0 < matching.length then
      match documentMatch U file matching with
      | none => none
      | some m => searchFiles U search rest (found ++ [m])
    else searchFiles U search rest found

/-- The result for a query that no document matches. -/
def noResults (searchQueryValue : String) : DocumentMatch :=
  { Name := "", Path := "#",
    MatchingWords := "No results found for \"" ++ searchQueryValue ++ "\"." }

/-- The page data `serveQuery` hands to the layout template, for the tree
under `templates` and the form value `s`; `none` is a run-time panic. -/
def serveQuery (U : UnicodeTables) (templates : List Node) (searchQueryValue : String) :
    Option PageData :=
  let search := stringsSplit searchQueryValue ' '
  match searchFiles U search (indexFiles templates) [] with
  | none => none
  | some found =>
    if found.length = 0 then some { FoundDocuments := [noResults searchQueryValue] }
    else some { FoundDocuments := found }

/-! ## What the specification says of a search -/

/-- The white-space-separated words of a document, all of them: those of
a file that opens, none for a file that does not open or for a directory. -/
def documentWords : Node → List String
  | .file _ (some text) => allWords text
  | .file _ none => []
  | .dir _ _ => []

/-- The space-separated terms of a query. -/
def queryTerms (q : String) : List String :=
  stringsSplit q ' '

/-- A token is listed for a query: it contains neither brace, and its
lower-cased text contains the lower-cased form of at least one term. -/
def tokenListed (U : UnicodeTables) (q : String) (t : String) : Bool :=
  !stringsContains t "\x7b" && !stringsContains t "\x7d" &&
    (queryTerms q).any (fun term => stringsContains (stringsToLower U t) (stringsToLower U term))

/-- The tokens of a document listed for a query: in document order, with
repetitions. -/
def listedTokens (U : UnicodeTables) (q : String) (doc : String × Node) : List String :=
  (fileTokens doc.2).filter (tokenListed U q)

/-- A document matches a query: at least one of its tokens is listed. -/
def documentMatches (U : UnicodeTables) (q : String) (doc : String × Node) : Bool :=
  (fileTokens doc.2).any (tokenListed U q)

/-- The index documents that match a query, in enumeration order. -/
def matchingDocuments (U : UnicodeTables) (templates : List Node) (q : String) :
    List (String × Node) :=
  (indexFiles templates).filter (documentMatches U q)

/-- The `DocumentMatch` built for a matching document, from its path and its
listed tokens. -/
def matchOf (U : UnicodeTables) (q : String) (doc : String × Node) : DocumentMatch :=
  let parts := stringsSplit (slashPath doc.1) '/'
  let title := stringsTitle U (parts.getD (parts.length - 2) "")
  { Name := if title = "Templates" then "Home" else title,
    Path := stringsTrimRight (stringsTrimLeft (slashPath doc.1) "templates\\") ".index.html",
    MatchingWords := "Contains: " ++ stringsJoin (listedTokens U q doc) ", " }

/-- The part before the last of the slash-normalised path of a file, split
at the slashes: `parts[len(parts)-2]`. -/
def parentPart (file : String) : String :=
  (stringsSplit (slashPath file) '/').getD ((stringsSplit (slashPath file) '/').length - 2) ""

/-- A name free of both path separators. -/
def plainName (s : String) : Bool :=
  !s.data.contains '/' && !s.data.contains '\\'

/-- The directory named `d` is the parent directory of the file at `file`:
the path ends with `d`, a slash and a file name, `d` starting the path or
following a slash. -/
def IsParentDirectory (d file : String) : Prop :=
  plainName d = true ∧ ∃ n : String, plainName n = true ∧
    (file = d ++ "/" ++ n ∨ ∃ p : String, file = p ++ "/" ++ d ++ "/" ++ n)

/-- The file at `file` lies at the template root: its path is `templates/`
followed by a plain name. -/
def atTemplateRoot (file : String) : Bool :=
  stringsHasPrefix file "templates/" && plainName ⟨file.data.drop 10⟩

/-! ## `serveTemplate` -/

/-- The outcome of `os.Stat`: an entry that is a directory or not, the error
for which `os.IsNotExist` holds, or any other error. -/
inductive StatResult where
  | found (isDir : Bool)
  | notExist
  | otherError
deriving DecidableEq

/-- What `serveTemplate` reads of the world: the outcome of `os.Stat` at a
path, and whether `template.ParseFiles(lp, tp)` succeeds. -/
structure FileSystem where
  stat : String → StatResult
  parseFiles : String → String → Bool

/-- What a handler does with the response. -/
inductive Response where
  /-- The request is handed to `serveGalleryPage`. -/
  | galleryPage
  /-- The library call `http.ServeFile(w, r, fp)`. -/
  | serveFile (fp : String)
  /-- The layout template is executed, for the page fragment `tp`. -/
  | executeTemplate (lp tp : String)
  /-- The handler `serveNotFound`: status 404 and the page `templates/404.html`. -/
  | serveNotFound
  /-- The handler `serveInternalError`: status 500 and the page `templates/error.html`. -/
  | serveInternalError
  /-- The handler returns without writing a status or a body. -/
  | nothing
deriving DecidableEq

/-- The test that hands a request to the gallery handler. -/
def isGalleryRequest (url : String) : Bool :=
  stringsHasPrefix url "/gallery/" && !stringsContains url "."

/-- The path `fp` of `serveTemplate`: the request path under `static`. -/
def staticPath (url : String) : String :=
  filepathJoin ["static", filepathClean url]

/-- The path `tp` of `serveTemplate`: the `index.html` template at the
request path under `templates`. -/
def templatePath (url : String) : String :=
  filepathJoin ["templates", filepathClean url, "index.html"]

/-- The handler `serveTemplate` for the request path `url`. -/
def serveTemplate (fs : FileSystem) (url : String) : Response :=
  let lp := filepathJoin ["templates", "layout.html"]
  let fp := filepathJoin ["static", filepathClean url]
  if stringsHasPrefix url "/gallery/" && !stringsContains url "." then .galleryPage
  else
    match fs.stat fp with
    | .found isDir =>
      if !isDir then .serveFile fp
      else
        let tp := filepathJoin ["templates", filepathClean url, "index.html"]
        match fs.stat tp with
        | .found _ => if fs.parseFiles lp tp then .executeTemplate lp tp else .serveNotFound
        | .notExist => .serveFile fp
        | .otherError => .nothing
    | .notExist => .serveNotFound
    | .otherError => .serveInternalError

/-! ## The gallery -/

/-- The names `file.Readdirnames(0)` yields after `os.Open(path)`: the
entries of a directory in listing order, none for a file. -/
def readdirnames : Node → List String
  | .file _ _ => []
  | .dir _ es => es.map Node.name

/-- The callback of the walk in `imageGalleryCollectionLinks`, from the
`links` so far; `none` when `images[0]` is out of range. -/
def collectionVisit (U : UnicodeTables) (links : List CollectionLink) (v : String × Node) :
    Option (List CollectionLink) :=
  let name := v.2.name
  let images := readdirnames v.2
  if !stringsContains name "." && name != "gallery" then
    match images with
    | [] => none
    | first :: _ =>
      some (links ++ [{ Name := stringsTitle U name, Path := name ++ "/",
                        Image := first, ImgCount := images.length }])
  else some links

/-- The walk of `imageGalleryCollectionLinks` over the calls left. -/
def collectionWalk (U : UnicodeTables) :
    List (String × Node) → List CollectionLink → Option (List CollectionLink)
  | [], links => some links
  | v :: rest, links =>
    match collectionVisit U links v with
    | none => none
    | some links' => collectionWalk U rest links'

/-- The links `imageGalleryCollectionLinks` returns for the entries of
`static/gallery`; `none` is a run-time panic. -/
def imageGalleryCollectionLinks (U : UnicodeTables) (gallery : List Node) :
    Option (List CollectionLink) :=
  collectionWalk U (walk (filepathJoin ["static", "gallery"]) (.dir "gallery" gallery)) []

/-- The names `listGalleryImages` collects under `static` + `url`, `target`
being the entry there: the names with a dot, in walk order; `none` is the
error returned when the entry does not exist. -/
def listGalleryImages (url : String) (target : Option Node) : Option (List String) :=
  match target with
  | none => none
  | some n =>
    some (((walk (filepathJoin ["static", url]) n).filter
      (fun v => stringsContains v.2.name ".")).map (fun v => v.2.name))

/-- What `serveGalleryPage` answers. -/
inductive GalleryResponse where
  /-- The handler `serveNotFound`. -/
  | serveNotFound
  /-- The layout template executed with the page data. -/
  | layout (data : PageData)
deriving DecidableEq

/-- The handler `serveGalleryPage` for the request path `url`: `parsed`
tells whether `template.ParseFiles` succeeds, `gallery` holds the entries of
`static/gallery` and `target` the entry at `static` + `url`; `none` is a
run-time panic. -/
def serveGalleryPage (U : UnicodeTables) (url : String) (parsed : Bool)
    (gallery : List Node) (target : Option Node) : Option GalleryResponse :=
  if url = "/gallery/" then
    if !parsed then some .serveNotFound
    else
      match imageGalleryCollectionLinks U gallery with
      | none => none
      | some links => some (.layout { Links := links })
  else
    if !parsed then some .serveNotFound
    else
      let title := stringsTitle U (stringsReplaceAll
        (stringsTrimSuffix (stringsTrimPrefix url "/") "/") '/' " > ")
      match listGalleryImages url target with
      | none => some .serveNotFound
      | some images =>
        let columnOne := images.take (images.length / 2)
        let columnTwo := images.drop (images.length / 2)
        some (.layout { Title := title, ImageColumnOne := columnOne,
                        ImageColumnTwo := columnTwo })

/-! ## The blog -/

/-- The outcome of `os.Open(contentPath)` and of the `io.Copy` that follows. -/
inductive IndexContent where
  /-- The file cannot be opened. -/
  | notOpened
  /-- The file opens and reading it fails: it is a directory. -/
  | notRead
  /-- The file opens and `text` is its full content. -/
  | text (text : String)
deriving DecidableEq

/-- The reading of `index.html` in the entry a walk visits: it cannot be
opened below a file, nor when the directory has no such entry or one that
does not open. -/
def openIndex : Node → IndexContent
  | .file _ _ => .notOpened
  | .dir _ es =>
    match es.find? (fun e => e.name == "index.html") with
    | none => .notOpened
    | some (.file _ none) => .notOpened
    | some (.file _ (some text)) => .text text
    | some (.dir _ _) => .notRead

/-- The callback of the walk in `blogPostLinks`, from the `links` so far. -/
def blogVisit (U : UnicodeTables) (links : List BlogLink) (v : String × Node) : List BlogLink :=
  let name := v.2.name
  match openIndex v.2 with
  | .notOpened => links
  | opened =>
    if !stringsContains name "." && name != "blog" then
      match opened with
      | .text text =>
        links ++ [{ Name := stringsTitle U name, Path := name ++ "/", Text := text }]
      | _ => links
    else links

/-- The links `blogPostLinks` returns for the entries of `static/blog`. -/
def blogPostLinks (U : UnicodeTables) (blog : List Node) : List BlogLink :=
  (walk (filepathJoin ["static", "blog"]) (.dir "blog" blog)).foldl (blogVisit U) []

/-! ## What the specification says of the blog and the gallery -/

/-- The full content of the `index.html` of a visited entry, when it can be
opened and read. -/
def indexText (n : Node) : Option String :=
  match openIndex n with
  | .text text => some text
  | _ => none

/-- The entries of the walk under `static/blog` that get a link: the
directories, at any depth, whose name has no dot and is not `blog` and whose
`index.html` can be opened and read. -/
def blogDirectories (blog : List Node) : List (String × Node) :=
  (walk (filepathJoin ["static", "blog"]) (.dir "blog" blog)).filter
    (fun v => v.2.isDir && !stringsContains v.2.name "." && v.2.name != "blog" &&
      (indexText v.2).isSome)

/-- The entries of the walk under `static/gallery` that get a link: those,
at any depth, whose name has no dot and is not `gallery`. -/
def galleryCollections (gallery : List Node) : List (String × Node) :=
  (walk (filepathJoin ["static", "gallery"]) (.dir "gallery" gallery)).filter
    (fun v => !stringsContains v.2.name "." && v.2.name != "gallery")

/-- The names of the immediate subdirectories of a root with the entries
`entries`. -/
def immediateSubdirectories (entries : List Node) : List String :=
  (entries.filter Node.isDir).map Node.name

/-! ## Concrete inputs -/

/-- A template tree with one document in a directory named `home` and one
in a nested directory named `templates`. -/
def homeTree : List Node :=
  [.dir "home" [.file "index.html" (some "cat")],
   .dir "a" [.dir "templates" [.file "index.html" (some "cat")]]]

/-- A template tree with the document `templates/foo/index.html`. -/
def fooTree : List Node :=
  [.dir "foo" [.file "index.html" (some "a Catalog")]]

/-- A file system in which `static/blog` is a directory and nothing else
exists. -/
def blogWithoutTemplate : FileSystem :=
  { stat := fun p => if p = "static/blog" then .found true else .notExist,
    parseFiles := fun _ _ => true }

/-- A file system in which `static/blog` is a directory and the lookup of
`templates/blog/index.html` fails with an error other than "does not
exist", such as a permission error. -/
def blogTemplateDenied : FileSystem :=
  { stat := fun p =>
      if p = "static/blog" then .found true
      else if p = "templates/blog/index.html" then .otherError
      else .notExist,
    parseFiles := fun _ _ => true }

/-- A blog tree with a post that has a directory of its own. -/
def nestedBlog : List Node :=
  [.dir "post" [.file "index.html" (some "hello"),
                .dir "img" [.file "index.html" (some "x")]]]

/-- A gallery tree with a collection that has a directory of its own. -/
def nestedGallery : List Node :=
  [.dir "cats" [.file "a.png" (some ""), .dir "more" [.file "b.png" (some "")]]]

/-- The word of `n` letters `a`. -/
def wordOfSize (n : Nat) : String :=
  ⟨List.replicate n 'a'⟩

/-- The text of `wordOfSize n`, a space and the word `cat`. -/
def afterWord (n : Nat) : String :=
  ⟨List.replicate n 'a' ++ [' ', 'c', 'a', 't']⟩

/-- The text of the word `cat`, a space, `wordOfSize n`, a space and the
word `cat`. -/
def aroundWord (n : Nat) : String :=
  ⟨'c' :: 'a' :: 't' :: ' ' :: (List.replicate n 'a' ++ [' ', 'c', 'a', 't'])⟩

/-- A word of as many bytes as the buffer of the scanner holds. -/
def longWord : String :=
  wordOfSize maxScanTokenSize

/-- The template tree whose only document is `templates/foo/index.html`,
with the content `text`. -/
def fooTreeOf (text : String) : List Node :=
  [.dir "foo" [.file "index.html" (some text)]]

/-- The document of `fooTreeOf text`, as the walk collects it. -/
def fooDocumentOf (text : String) : String × Node :=
  ("templates/foo/index.html", .file "index.html" (some text))

/-! ## Lemmas on the search -/

theorem anyTermIn_eq_any (U : UnicodeTables) (text : String) (search : List String) :
    anyTermIn U text search =
      search.any (fun term => stringsContains (stringsToLower U text) (stringsToLower U term)) := by
  induction search with
  | nil => rfl
  | cons str rest ih =>
    simp only [anyTermIn, List.any_cons, ih]
    cases stringsContains (stringsToLower U text) (stringsToLower U str) <;> simp

theorem scanMatching_eq_filter (U : UnicodeTables) (q : String) (tokens matching : List String) :
    scanMatching U (stringsSplit q ' ') tokens matching =
      matching ++ tokens.filter (tokenListed U q) := by
  induction tokens generalizing matching with
  | nil => simp [scanMatching]
  | cons t more ih =>
    simp only [scanMatching, List.filter_cons, tokenListed, queryTerms, anyTermIn_eq_any, ih]
    by_cases h1 : stringsContains t "\x7b" = true <;>
      by_cases h2 : stringsContains t "\x7d" = true <;>
      by_cases h3 : (stringsSplit q ' ').any
        (fun term => stringsContains (stringsToLower U t) (stringsToLower U term)) = true <;>
      simp [h1, h2, h3]

theorem length_splitRunes (sep : Char) (l : List Char) :
    (splitRunes sep l).length = l.count sep + 1 := by
  induction l with
  | nil => rfl
  | cons c cs ih =>
    by_cases h : c = sep
    · subst h; simp [splitRunes, ih]
    · have hne : (c == sep) = false := by simpa using h
      simp only [splitRunes, h, if_false, List.count_cons, hne]
      cases hs : splitRunes sep cs with
      | nil => rw [hs] at ih; simp at ih
      | cons p ps => rw [hs] at ih; simpa using ih

theorem mem_insertByName {α : Type} (x y : String × α) (l : List (String × α)) :
    y ∈ insertByName x l ↔ y = x ∨ y ∈ l := by
  induction l with
  | nil => simp [insertByName]
  | cons z zs ih =>
    simp only [insertByName]
    split
    · simp
    · simp only [List.mem_cons, ih]; tauto

theorem mem_sortByName {α : Type} (y : String × α) (l : List (String × α)) :
    y ∈ sortByName l ↔ y ∈ l := by
  induction l with
  | nil => simp [sortByName]
  | cons z zs ih =>
    have : sortByName (z :: zs) = insertByName z (sortByName zs) := rfl
    rw [this, mem_insertByName, ih]; simp

mutual
theorem walk_path_shape (path : String) :
    ∀ (n : Node) (v : String × Node), v ∈ walk path n →
      v.1 = path ∨ ∃ r : String, v.1 = path ++ "/" ++ r
  | .file n c, v, hv => by
    simp only [walk, List.mem_singleton] at hv
    left; rw [hv]
  | .dir n es, v, hv => by
    simp only [walk, List.mem_cons, List.mem_flatMap] at hv
    rcases hv with hv | ⟨p, hp, hvp⟩
    · left; rw [hv]
    · right
      exact walkEntries_path_shape path es p ((mem_sortByName p _).1 hp) v hvp
theorem walkEntries_path_shape (path : String) :
    ∀ (es : List Node) (p : String × List (String × Node)), p ∈ walkEntries path es →
      ∀ v ∈ p.2, ∃ r : String, v.1 = path ++ "/" ++ r
  | [], p, hp => by simp [walkEntries] at hp
  | e :: es, p, hp => by
    simp only [walkEntries, List.mem_cons] at hp
    intro v hv
    rcases hp with hp | hp
    · subst hp
      rcases walk_path_shape (path ++ "/" ++ e.name) e v hv with h | ⟨r, h⟩
      · exact ⟨e.name, h⟩
      · exact ⟨e.name ++ "/" ++ r, by rw [h]; simp [String.append_assoc]⟩
    · exact walkEntries_path_shape path es p hp v hv
end

theorem mem_walkEntries (path : String) (e : Node) :
    ∀ es : List Node, e ∈ es → (e.name, walk (path ++ "/" ++ e.name) e) ∈ walkEntries path es
  | [], h => by simp at h
  | x :: xs, h => by
    simp only [walkEntries, List.mem_cons]
    rcases List.mem_cons.1 h with rfl | h'
    · exact Or.inl rfl
    · exact Or.inr (mem_walkEntries path e xs h')

/-- The walk of a directory goes through the walk of each of its entries,
and so reaches the entries at every depth. -/
theorem walk_entry (path n : String) (es : List Node) (e : Node) (he : e ∈ es)
    (v : String × Node) (hv : v ∈ walk (path ++ "/" ++ e.name) e) :
    v ∈ walk path (.dir n es) := by
  simp only [walk, List.mem_cons, List.mem_flatMap]
  exact Or.inr ⟨_, (mem_sortByName _ _).2 (mem_walkEntries path e es he), hv⟩

theorem length_stringsSplit (s : String) (sep : Char) :
    (stringsSplit s sep).length = s.data.count sep + 1 := by
  simp [stringsSplit, length_splitRunes]

theorem two_le_parts_of_slash (r : String) :
    2 ≤ (stringsSplit (slashPath ("templates" ++ "/" ++ r)) '/').length := by
  rw [length_stringsSplit]
  have h : '/' ∈ (slashPath ("templates" ++ "/" ++ r)).data := by
    simp [slashPath, stringsReplaceAll, String.data_append, List.flatMap_append]
  have := List.count_pos_iff.2 h
  omega

theorem indexFiles_parts (templates : List Node) (v : String × Node)
    (hv : v ∈ indexFiles templates) :
    2 ≤ (stringsSplit (slashPath v.1) '/').length := by
  simp only [indexFiles, List.mem_filter] at hv
  rcases walk_path_shape "templates" _ v hv.1 with h | ⟨r, h⟩
  · have hc := hv.2
    rw [h] at hc
    exact absurd hc (by decide)
  · rw [h]; exact two_le_parts_of_slash r

theorem scanMatching_pos_iff (U : UnicodeTables) (q : String) (doc : String × Node) :
    0 < (scanMatching U (stringsSplit q ' ') (fileTokens doc.2) []).length ↔
      documentMatches U q doc = true := by
  rw [scanMatching_eq_filter, List.nil_append, List.length_pos, documentMatches]
  simp [List.filter_eq_nil_iff]

theorem documentMatch_eq (U : UnicodeTables) (q : String) (doc : String × Node)
    (h : 2 ≤ (stringsSplit (slashPath doc.1) '/').length) :
    documentMatch U doc.1 (scanMatching U (stringsSplit q ' ') (fileTokens doc.2) []) =
      some (matchOf U q doc) := by
  simp [documentMatch, h, matchOf, scanMatching_eq_filter, listedTokens]

theorem documentMatch_listed (U : UnicodeTables) (q : String) (doc : String × Node)
    (h : 2 ≤ (stringsSplit (slashPath doc.1) '/').length) :
    documentMatch U doc.1 (listedTokens U q doc) = some (matchOf U q doc) := by
  simp [documentMatch, h, matchOf]

theorem searchFiles_eq (U : UnicodeTables) (q : String) :
    ∀ (files : List (String × Node)) (found : List DocumentMatch),
      (∀ v ∈ files, 2 ≤ (stringsSplit (slashPath v.1) '/').length) →
      searchFiles U (stringsSplit q ' ') files found =
        some (found ++ (files.filter (documentMatches U q)).map (matchOf U q))
  | [], found, _ => by simp [searchFiles]
  | v :: rest, found, h => by
    have hv := h v (List.mem_cons_self _ _)
    have hrest : ∀ w ∈ rest, 2 ≤ (stringsSplit (slashPath w.1) '/').length :=
      fun w hw => h w (List.mem_cons_of_mem _ hw)
    obtain ⟨file, node⟩ := v
    simp only [searchFiles]
    by_cases hm : documentMatches U q (file, node) = true
    · have hpos := (scanMatching_pos_iff U q (file, node)).2 hm
      have hdm := documentMatch_eq U q (file, node) hv
      simp only at hpos hdm
      rw [if_pos hpos, hdm]
      simp only
      rw [searchFiles_eq U q rest _ hrest]
      simp [List.filter_cons, hm]
    · have hpos : ¬ 0 < (scanMatching U (stringsSplit q ' ') (fileTokens node) []).length :=
        fun hp => hm ((scanMatching_pos_iff U q (file, node)).1 hp)
      rw [if_neg hpos, searchFiles_eq U q rest _ hrest]
      simp [List.filter_cons, hm]

/-- The search returns, and its results are the matches of the matching
documents in enumeration order, or the single placeholder. -/
theorem serveQuery_eq (U : UnicodeTables) (templates : List Node) (q : String) :
    serveQuery U templates q =
      some { FoundDocuments :=
        if (matchingDocuments U templates q).isEmpty then [noResults q]
        else (matchingDocuments U templates q).map (matchOf U q) } := by
  simp only [serveQuery]
  rw [searchFiles_eq U q _ _ (indexFiles_parts templates)]
  simp only [List.nil_append, List.length_map, matchingDocuments]
  cases h : (indexFiles templates).filter (documentMatches U q) with
  | nil => simp
  | cons v vs => simp

theorem trimLeft_templates (rest tail : List Char) :
    stringsTrimLeft ⟨"templates".data ++ ('/' :: rest) ++ tail⟩ "templates\\" =
      ⟨('/' :: rest) ++ tail⟩ := by
  have h1 : "templates".data = ['t', 'e', 'm', 'p', 'l', 'a', 't', 'e', 's'] := rfl
  have h2 : "templates\\".data = ['t', 'e', 'm', 'p', 'l', 'a', 't', 'e', 's', '\\'] := rfl
  simp [stringsTrimLeft, h1, h2, List.dropWhile]

theorem trimRight_index (front : List Char) :
    stringsTrimRight ⟨front ++ ['/'] ++ "index.html".data⟩ ".index.html" = ⟨front ++ ['/']⟩ := by
  have h1 : "index.html".data = ['i', 'n', 'd', 'e', 'x', '.', 'h', 't', 'm', 'l'] := rfl
  have h2 : ".index.html".data = ['.', 'i', 'n', 'd', 'e', 'x', '.', 'h', 't', 'm', 'l'] := rfl
  simp [stringsTrimRight, h1, h2, List.dropWhile]

/-- The two trims leave exactly the middle of `templates` + `m` + `index.html`
when `m` begins and ends with a slash. -/
theorem trimmed_path (file m : String)
    (hpath : slashPath file = "templates" ++ m ++ "index.html")
    (hhead : m.data.head? = some '/') (hlast : m.data.getLast? = some '/') :
    stringsTrimRight (stringsTrimLeft (slashPath file) "templates\\") ".index.html" = m := by
  obtain ⟨md⟩ := m
  simp only at hhead hlast
  obtain ⟨rest, hrest⟩ : ∃ rest, md = '/' :: rest := by
    cases md with
    | nil => simp at hhead
    | cons c cs => simp at hhead; exact ⟨cs, by rw [hhead]⟩
  obtain ⟨front, hfront⟩ : ∃ front, md = front ++ ['/'] := by
    rcases List.getLast?_eq_some_iff.1 hlast with ⟨ys, hys⟩
    exact ⟨ys, hys⟩
  have e1 : slashPath file = ⟨"templates".data ++ ('/' :: rest) ++ "index.html".data⟩ := by
    rw [hpath, hrest]; rfl
  rw [e1, trimLeft_templates, ← hrest, hfront, trimRight_index]

theorem splitRunes_ne_nil (sep : Char) (l : List Char) : splitRunes sep l ≠ [] := by
  intro h
  have := length_splitRunes sep l
  rw [h] at this
  simp at this

theorem splitRunes_append_sep (sep : Char) (xs ys : List Char) :
    splitRunes sep (xs ++ sep :: ys) = splitRunes sep xs ++ splitRunes sep ys := by
  induction xs with
  | nil => simp [splitRunes]
  | cons c cs ih =>
    by_cases h : c = sep
    · subst h; simp [splitRunes, ih]
    · cases hs : splitRunes sep cs with
      | nil => exact absurd hs (splitRunes_ne_nil sep cs)
      | cons p ps =>
        have e : splitRunes sep (cs ++ sep :: ys) = p :: (ps ++ splitRunes sep ys) := by
          rw [ih, hs]; rfl
        show splitRunes sep (c :: (cs ++ sep :: ys)) = splitRunes sep (c :: cs) ++ splitRunes sep ys
        simp only [splitRunes, h, if_false, e, hs, List.cons_append]

theorem splitRunes_of_not_mem (sep : Char) (l : List Char) (h : sep ∉ l) :
    splitRunes sep l = [l] := by
  induction l with
  | nil => rfl
  | cons c cs ih =>
    have hc : c ≠ sep := fun e => h (by simp [e])
    have hcs : sep ∉ cs := fun e => h (List.mem_cons_of_mem _ e)
    simp [splitRunes, hc, ih hcs]

theorem slashPath_data_append (a b : String) :
    (slashPath (a ++ b)).data = (slashPath a).data ++ (slashPath b).data := by
  simp [slashPath, stringsReplaceAll, String.data_append, List.flatMap_append]

theorem slashPath_slash : (slashPath "/").data = ['/'] := rfl

theorem slashPath_plain (s : String) (h : plainName s = true) : (slashPath s).data = s.data := by
  have hb : '\\' ∉ s.data := by
    simp [plainName] at h; exact h.2
  simp only [slashPath, stringsReplaceAll]
  generalize s.data = l at hb
  induction l with
  | nil => rfl
  | cons c cs ih =>
    have hc : c ≠ '\\' := fun e => hb (by simp [e])
    have hcs : '\\' ∉ cs := fun e => hb (List.mem_cons_of_mem _ e)
    simp [List.flatMap_cons, hc, ih hcs]

theorem not_slash_of_plain (s : String) (h : plainName s = true) : '/' ∉ s.data := by
  simp [plainName] at h; exact h.1

theorem getD_append_two (L : List String) (a b : String) :
    (L ++ [a, b]).getD ((L ++ [a, b]).length - 2) "" = a := by
  have h : (L ++ [a, b]).length - 2 = L.length := by simp
  rw [h, List.getD_eq_getElem?_getD, List.getElem?_append_right (Nat.le_refl _)]
  simp

/-- The part before the last of a slash-normalised path is the name of the
parent directory. -/
theorem parts_parent (d file : String) (h : IsParentDirectory d file) :
    (stringsSplit (slashPath file) '/').getD ((stringsSplit (slashPath file) '/').length - 2) "" = d := by
  obtain ⟨hd, n, hn, hfile | ⟨p, hfile⟩⟩ := h
  · have e : (slashPath file).data = d.data ++ '/' :: n.data := by
      rw [hfile, slashPath_data_append, slashPath_data_append, slashPath_plain d hd,
        slashPath_plain n hn, slashPath_slash]; simp
    simp only [stringsSplit, e, splitRunes_append_sep,
      splitRunes_of_not_mem _ _ (not_slash_of_plain d hd),
      splitRunes_of_not_mem _ _ (not_slash_of_plain n hn)]
    simp
  · have e : (slashPath file).data = (slashPath p).data ++ '/' :: (d.data ++ '/' :: n.data) := by
      rw [hfile, slashPath_data_append, slashPath_data_append, slashPath_data_append,
        slashPath_data_append, slashPath_plain d hd, slashPath_plain n hn, slashPath_slash]; simp
    have hs : stringsSplit (slashPath file) '/' =
        (splitRunes '/' (slashPath p).data).map String.mk ++ [d, n] := by
      simp only [stringsSplit, e, splitRunes_append_sep,
        splitRunes_of_not_mem _ _ (not_slash_of_plain d hd),
        splitRunes_of_not_mem _ _ (not_slash_of_plain n hn)]
      simp
    rw [hs, getD_append_two]

theorem matchOf_ne_noResults (U : UnicodeTables) (q q' : String) (doc : String × Node) :
    matchOf U q doc ≠ noResults q' := by
  intro h
  have h2 := congrArg (fun dm => dm.MatchingWords.data.head?) h
  simp [matchOf, noResults, String.data_append] at h2

theorem documentMatch_ne_noResults (U : UnicodeTables) (q : String) (file : String)
    (matching : List String) (dm : DocumentMatch)
    (h : documentMatch U file matching = some dm) : dm ≠ noResults q := by
  intro e
  simp only [documentMatch] at h
  split at h
  · have h2 := congrArg (fun o => o.map (fun d => d.MatchingWords.data.head?)) h
    simp [e, noResults, String.data_append] at h2
  · exact Option.noConfusion h

theorem documentMatch_of_matching (U : UnicodeTables) (templates : List Node) (q : String)
    (doc : String × Node) (hdoc : doc ∈ matchingDocuments U templates q) :
    documentMatch U doc.1 (listedTokens U q doc) = some (matchOf U q doc) :=
  documentMatch_listed U q doc (indexFiles_parts templates doc (List.mem_filter.1 hdoc).1)

theorem parent_of_atTemplateRoot (file : String) (h : atTemplateRoot file = true) :
    IsParentDirectory "templates" file := by
  simp only [atTemplateRoot, stringsHasPrefix, Bool.and_eq_true] at h
  obtain ⟨hpre, hplain⟩ := h
  refine ⟨by decide, ⟨file.data.drop 10⟩, hplain, Or.inl ?_⟩
  have h1 := List.prefix_iff_eq_append.1 (List.isPrefixOf_iff_prefix.1 hpre)
  have h2 : "templates/".data.length = 10 := rfl
  rw [h2] at h1
  apply String.ext
  rw [← h1]
  simp [String.data_append]

theorem title_templates (U : UnicodeTables) : stringsTitle U "templates" = "Templates" := rfl

theorem title_foo (U : UnicodeTables) : stringsTitle U "foo" = "Foo" := rfl

theorem tokenListed_catalog (U : UnicodeTables) : tokenListed U "cat dog" "Catalog" = true := rfl

/-- How the results of a search pair with the matching documents. -/
theorem serveQuery_paired (U : UnicodeTables) (templates : List Node) (q : String)
    (R : String × Node → DocumentMatch → Prop)
    (hR : ∀ doc ∈ matchingDocuments U templates q, R doc (matchOf U q doc)) :
    ∃ data, serveQuery U templates q = some data ∧
      ((matchingDocuments U templates q = [] ∧ data.FoundDocuments = [noResults q]) ∨
        (matchingDocuments U templates q ≠ [] ∧
          List.Forall₂ R (matchingDocuments U templates q) data.FoundDocuments)) := by
  refine ⟨_, serveQuery_eq U templates q, ?_⟩
  cases hl : matchingDocuments U templates q with
  | nil => left; simp
  | cons a l =>
    right
    refine ⟨by simp, ?_⟩
    rw [← hl]
    have hne : ¬ (matchingDocuments U templates q).isEmpty = true := by simp [hl]
    rw [if_neg hne, List.forall₂_map_right_iff, List.forall₂_same]
    exact hR

/-! ## Lemmas on the scanner -/

theorem wordsFrom_replicate (n : Nat) (rest cur : List Char) :
    wordsFrom (List.replicate n 'a' ++ rest) cur = wordsFrom rest (List.replicate n 'a' ++ cur) := by
  induction n generalizing cur with
  | zero => rfl
  | succ k ih =>
    have h1 : List.replicate (k + 1) 'a' ++ rest = 'a' :: (List.replicate k 'a' ++ rest) := rfl
    have h2 : List.replicate (k + 1) 'a' ++ cur = List.replicate k 'a' ++ 'a' :: cur := by
      rw [List.replicate_succ', List.append_assoc]; rfl
    have h3 : wordsFrom ('a' :: (List.replicate k 'a' ++ rest)) cur =
        wordsFrom (List.replicate k 'a' ++ rest) ('a' :: cur) := rfl
    rw [h1, h3, ih, h2]

theorem byteLen_wordOfSize (n : Nat) : byteLen (wordOfSize n) = n := by
  have h : runeLen 'a' = 1 := by decide
  simp [byteLen, wordOfSize, List.map_replicate, h]

theorem wordsFrom_wordOfSize (n : Nat) (hn : 0 < n) (tail : List Char) :
    wordsFrom (List.replicate n 'a' ++ ' ' :: tail) [] =
      (wordOfSize n, 1) :: wordsFrom tail [] := by
  rw [wordsFrom_replicate, List.append_nil]
  obtain ⟨k, rfl⟩ : ∃ k, n = k + 1 := ⟨n - 1, by omega⟩
  have hne : (List.replicate (k + 1) 'a').isEmpty = false := rfl
  have hsp : isSpace ' ' = true := by decide
  have hlen : runeLen ' ' = 1 := by decide
  simp only [wordsFrom, hsp, hne, hlen, if_true, Bool.false_eq_true, if_false,
    List.reverse_replicate, wordOfSize]

theorem fitsBuffer_wordOfSize (n : Nat) (hn : maxScanTokenSize ≤ n) :
    fitsBuffer (wordOfSize n, 1) = false := by
  simp only [fitsBuffer, byteLen_wordOfSize]
  exact decide_eq_false (by omega)

theorem wordsFrom_afterWord (n : Nat) (hn : 0 < n) :
    wordsFrom (afterWord n).data [] = [(wordOfSize n, 1), ("cat", 1)] := by
  show wordsFrom (List.replicate n 'a' ++ ' ' :: ['c', 'a', 't']) [] = _
  rw [wordsFrom_wordOfSize n hn]
  rfl

theorem wordsFrom_aroundWord (n : Nat) (hn : 0 < n) :
    wordsFrom (aroundWord n).data [] = [("cat", 1), (wordOfSize n, 1), ("cat", 1)] := by
  have h : ∀ X : List Char,
      wordsFrom ('c' :: 'a' :: 't' :: ' ' :: X) [] = ("cat", 1) :: wordsFrom X [] :=
    fun X => rfl
  show wordsFrom ('c' :: 'a' :: 't' :: ' ' ::
    (List.replicate n 'a' ++ ' ' :: ['c', 'a', 't'])) [] = _
  rw [h, wordsFrom_wordOfSize n hn]
  rfl

theorem maxScanTokenSize_pos : 0 < maxScanTokenSize := by decide

theorem scanWords_afterWord (n : Nat) (hn : maxScanTokenSize ≤ n) :
    scanWords (afterWord n) = [] := by
  have hpos : 0 < n := Nat.lt_of_lt_of_le maxScanTokenSize_pos hn
  simp only [scanWords, wordsFrom_afterWord n hpos, List.takeWhile_cons,
    fitsBuffer_wordOfSize n hn, Bool.false_eq_true, if_false, List.map_nil]

theorem scanWords_aroundWord (n : Nat) (hn : maxScanTokenSize ≤ n) :
    scanWords (aroundWord n) = ["cat"] := by
  have hpos : 0 < n := Nat.lt_of_lt_of_le maxScanTokenSize_pos hn
  have h : fitsBuffer ("cat", 1) = true := by decide
  simp only [scanWords, wordsFrom_aroundWord n hpos, List.takeWhile_cons,
    fitsBuffer_wordOfSize n hn, h, Bool.false_eq_true, if_false, if_true, List.map_cons,
    List.map_nil]

theorem allWords_afterWord (n : Nat) (hn : 0 < n) :
    allWords (afterWord n) = [wordOfSize n, "cat"] := by
  simp only [allWords, wordsFrom_afterWord n hn, List.map_cons, List.map_nil]

theorem allWords_aroundWord (n : Nat) (hn : 0 < n) :
    allWords (aroundWord n) = ["cat", wordOfSize n, "cat"] := by
  simp only [allWords, wordsFrom_aroundWord n hn, List.map_cons, List.map_nil]

theorem indexFiles_fooTreeOf (text : String) :
    indexFiles (fooTreeOf text) = [fooDocumentOf text] := rfl

theorem runeLen_le (c : Char) : 1 ≤ runeLen c ∧ runeLen c ≤ 4 := by
  unfold runeLen
  split
  · omega
  · split
    · omega
    · split <;> omega

theorem wordsFrom_end_size : ∀ (l cur : List Char) (p : String × Nat),
    p ∈ wordsFrom l cur → 1 ≤ p.2 ∧ p.2 ≤ 4
  | [], cur, p, hp => by
    simp only [wordsFrom] at hp
    split at hp
    · simp at hp
    · rw [List.mem_singleton.1 hp]; exact ⟨Nat.le_refl 1, by omega⟩
  | c :: cs, cur, p, hp => by
    simp only [wordsFrom] at hp
    split at hp
    · split at hp
      · exact wordsFrom_end_size cs [] p hp
      · rcases List.mem_cons.1 hp with h | h
        · rw [h]; exact runeLen_le c
        · exact wordsFrom_end_size cs [] p h
    · exact wordsFrom_end_size cs (c :: cur) p hp

theorem scanWords_isPrefix (text : String) : scanWords text <+: allWords text :=
  (List.takeWhile_prefix fitsBuffer).map _

theorem scanWords_short (text : String) (t : String) (ht : t ∈ scanWords text) :
    byteLen t < maxScanTokenSize := by
  obtain ⟨p, hp, rfl⟩ := List.mem_map.1 ht
  have hfit : fitsBuffer p = true := List.mem_takeWhile_imp hp
  have hsize := (wordsFrom_end_size _ _ p ((List.takeWhile_prefix fitsBuffer).subset hp)).1
  simp only [fitsBuffer, decide_eq_true_eq] at hfit
  omega

theorem scanWords_eq_allWords (text : String)
    (h : ∀ w ∈ allWords text, byteLen w + 4 ≤ maxScanTokenSize) :
    scanWords text = allWords text := by
  have hall : ∀ p ∈ wordsFrom text.data [], fitsBuffer p = true := by
    intro p hp
    have hw := h p.1 (List.mem_map_of_mem _ hp)
    have hsize := (wordsFrom_end_size _ _ p hp).2
    simp only [fitsBuffer, decide_eq_true_eq]
    omega
  simp only [scanWords, allWords, List.takeWhile_eq_self_iff.2 hall]

theorem scanWords_stops (text : String) :
    scanWords text = allWords text ∨
      ∃ w, (scanWords text ++ [w]) <+: allWords text ∧ maxScanTokenSize < byteLen w + 4 := by
  have hsplit := List.takeWhile_append_dropWhile fitsBuffer (wordsFrom text.data [])
  cases hd : (wordsFrom text.data []).dropWhile fitsBuffer with
  | nil =>
    left
    rw [hd, List.append_nil] at hsplit
    simp only [scanWords, allWords, hsplit]
  | cons p rest =>
    right
    refine ⟨p.1, ?_, ?_⟩
    · refine ⟨rest.map (fun w => w.1), ?_⟩
      rw [hd] at hsplit
      have h2 := congrArg (List.map (fun w : String × Nat => w.1)) hsplit
      rw [List.map_append, List.map_cons] at h2
      simp only [scanWords, allWords, List.append_assoc, List.singleton_append]
      exact h2
    · have hnot : fitsBuffer p = false := by
        have := List.head_dropWhile_not fitsBuffer (wordsFrom text.data [])
          (by rw [hd]; exact List.cons_ne_nil _ _)
        simpa [hd] using this
      have hmem : p ∈ wordsFrom text.data [] := by
        rw [← hsplit, hd]; simp
      have hsize := (wordsFrom_end_size _ _ p hmem).2
      simp only [fitsBuffer, decide_eq_false_iff_not] at hnot
      omega

/-- The tokens read from a document are its words up to the first word that
does not fit the buffer of the scanner: a prefix of its words, each token
shorter than the buffer; all its words when each of them, with four bytes
for the rune that ends it, fits; and otherwise followed by a word that does
not. -/
theorem fileTokens_scanned (node : Node) :
    fileTokens node <+: documentWords node ∧
    (∀ t ∈ fileTokens node, byteLen t < maxScanTokenSize) ∧
    ((∀ w ∈ documentWords node, byteLen w + 4 ≤ maxScanTokenSize) →
      fileTokens node = documentWords node) ∧
    (fileTokens node = documentWords node ∨
      ∃ w, (fileTokens node ++ [w]) <+: documentWords node ∧
        maxScanTokenSize < byteLen w + 4) := by
  cases node with
  | file name content =>
    cases content with
    | none => exact ⟨List.prefix_refl _, by simp [fileTokens], fun _ => rfl, Or.inl rfl⟩
    | some text =>
      exact ⟨scanWords_isPrefix text, scanWords_short text, scanWords_eq_allWords text,
        scanWords_stops text⟩
  | dir name es => exact ⟨List.prefix_refl _, by simp [fileTokens], fun _ => rfl, Or.inl rfl⟩

theorem stringsContains_of_not_mem (s : String) (c : Char) (rest : List Char)
    (h : c ∉ s.data) : stringsContains s ⟨c :: rest⟩ = false := by
  rw [Bool.eq_false_iff]
  intro hc
  simp only [stringsContains, List.any_eq_true] at hc
  obtain ⟨t, ht, hpre⟩ := hc
  have hsuf : t <:+ s.data := (List.mem_tails _ _).1 ht
  have hp : (c :: rest) <+: t := List.isPrefixOf_iff_prefix.1 hpre
  exact h (hsuf.subset (hp.subset (List.mem_cons_self _ _)))

theorem tokenListed_wordOfSize (n : Nat) : tokenListed asciiTables "cat" (wordOfSize n) = false := by
  have hlow : stringsToLower asciiTables (wordOfSize n) = wordOfSize n := by
    have h : toLowerRune asciiTables 'a' = 'a' := by decide
    simp [stringsToLower, wordOfSize, List.map_replicate, h]
  have hq : queryTerms "cat" = ["cat"] := by decide
  have hcat : stringsToLower asciiTables "cat" = ⟨'c' :: ['a', 't']⟩ := by decide
  have hc : stringsContains (wordOfSize n) ⟨'c' :: ['a', 't']⟩ = false :=
    stringsContains_of_not_mem _ _ _ (by simp [wordOfSize, List.mem_replicate])
  simp [tokenListed, hq, hlow, hcat, hc]

theorem tokenListed_cat : tokenListed asciiTables "cat" "cat" = true := by decide

theorem tokenListed_CAT : tokenListed asciiTables "CAT" "cat" = true := by decide

theorem serveQuery_afterWord (U : UnicodeTables) (q : String) (n : Nat)
    (hn : maxScanTokenSize ≤ n) :
    serveQuery U (fooTreeOf (afterWord n)) q = some { FoundDocuments := [noResults q] } := by
  have hm : matchingDocuments U (fooTreeOf (afterWord n)) q = [] := by
    simp only [matchingDocuments, indexFiles_fooTreeOf, List.filter_cons, documentMatches,
      fooDocumentOf, fileTokens, scanWords_afterWord n hn, List.any_nil, Bool.false_eq_true,
      if_false, List.filter_nil]
  rw [serveQuery_eq, hm]
  rfl

theorem serveQuery_aroundWord (n : Nat) (hn : maxScanTokenSize ≤ n) :
    serveQuery asciiTables (fooTreeOf (aroundWord n)) "cat" =
      some { FoundDocuments :=
        [{ Name := "Foo", Path := "/foo/", MatchingWords := "Contains: cat" }] } := by
  have hl : listedTokens asciiTables "cat" (fooDocumentOf (aroundWord n)) = ["cat"] := by
    simp only [listedTokens, fooDocumentOf, fileTokens, scanWords_aroundWord n hn,
      List.filter_cons, tokenListed_cat, if_true, List.filter_nil]
  have hd : documentMatches asciiTables "cat" (fooDocumentOf (aroundWord n)) = true := by
    simp only [documentMatches, fooDocumentOf, fileTokens, scanWords_aroundWord n hn,
      List.any_cons, tokenListed_cat, Bool.true_or]
  have hm : matchingDocuments asciiTables (fooTreeOf (aroundWord n)) "cat" =
      [fooDocumentOf (aroundWord n)] := by
    simp only [matchingDocuments, indexFiles_fooTreeOf, List.filter_cons, hd, if_true,
      List.filter_nil]
  have hmatch : matchOf asciiTables "cat" (fooDocumentOf (aroundWord n)) =
      { Name := "Foo", Path := "/foo/", MatchingWords := "Contains: cat" } := by
    have hN : ∀ text : String, (matchOf asciiTables "cat" (fooDocumentOf text)).Name = "Foo" :=
      fun _ => rfl
    have hP : ∀ text : String, (matchOf asciiTables "cat" (fooDocumentOf text)).Path = "/foo/" :=
      fun _ => rfl
    have hW : (matchOf asciiTables "cat" (fooDocumentOf (aroundWord n))).MatchingWords =
        "Contains: cat" := by
      show "Contains: " ++ stringsJoin (listedTokens asciiTables "cat"
        (fooDocumentOf (aroundWord n))) ", " = _
      rw [hl]; rfl
    cases hmo : matchOf asciiTables "cat" (fooDocumentOf (aroundWord n)) with
    | mk N P W =>
      rw [hmo] at hW
      have h1 := hN (aroundWord n)
      have h2 := hP (aroundWord n)
      rw [hmo] at h1 h2
      simp only at h1 h2 hW
      rw [h1, h2, hW]
  rw [serveQuery_eq, hm]
  simp only [List.isEmpty_cons, Bool.false_eq_true, if_false, List.map_cons, List.map_nil, hmatch]

/-! ## The claims on `serveQuery` -/

/-- C1, refuted as stated: the document `templates/foo/index.html` holds
the word `cat`, a word of 65536 bytes and the word `cat` again; for the
query `cat` its listed words are `cat` and `cat`, and its result has the
words `Contains: cat` only. -/
theorem serveQuery_words_past_long_word :
    serveQuery asciiTables (fooTreeOf (aroundWord maxScanTokenSize)) "cat" =
      some { FoundDocuments :=
        [{ Name := "Foo", Path := "/foo/", MatchingWords := "Contains: cat" }] } ∧
    indexFiles (fooTreeOf (aroundWord maxScanTokenSize)) =
      [fooDocumentOf (aroundWord maxScanTokenSize)] ∧
    documentWords (fooDocumentOf (aroundWord maxScanTokenSize)).2 = ["cat", longWord, "cat"] ∧
    byteLen longWord = 65536 ∧
    (documentWords (fooDocumentOf (aroundWord maxScanTokenSize)).2).filter
      (tokenListed asciiTables "cat") = ["cat", "cat"] := by
  refine ⟨serveQuery_aroundWord maxScanTokenSize (Nat.le_refl _), rfl,
    allWords_aroundWord maxScanTokenSize maxScanTokenSize_pos,
    byteLen_wordOfSize maxScanTokenSize, ?_⟩
  have hw : documentWords (fooDocumentOf (aroundWord maxScanTokenSize)).2 =
      ["cat", wordOfSize maxScanTokenSize, "cat"] :=
    allWords_aroundWord maxScanTokenSize maxScanTokenSize_pos
  rw [hw]
  simp only [List.filter_cons, tokenListed_cat, tokenListed_wordOfSize, if_true,
    Bool.false_eq_true, if_false, List.filter_nil]

/-- C1, amended: every result of `serveQuery` for a matching document has
`MatchingWords` equal to `Contains: ` followed by the `, `-joined listed
tokens of its document: the tokens the scanner reads that contain neither
brace and whose lower-cased text contains the lower-cased form of a
space-separated query term, in document order and with repetitions, each
occurrence listed once however many terms it contains. The tokens the
scanner reads are the words of the document up to the first word that does
not fit its buffer of 64 KiB; they are all its words when each has at most
65532 bytes. -/
theorem serveQuery_matching_words (U : UnicodeTables) (templates : List Node) (q : String) :
    (∃ data, serveQuery U templates q = some data ∧
      ((matchingDocuments U templates q = [] ∧ data.FoundDocuments = [noResults q]) ∨
        (matchingDocuments U templates q ≠ [] ∧
          List.Forall₂
            (fun doc dm =>
              dm.MatchingWords = "Contains: " ++ stringsJoin (listedTokens U q doc) ", ")
            (matchingDocuments U templates q) data.FoundDocuments))) ∧
    (∀ (doc : String × Node) (t : String),
      t ∈ listedTokens U q doc ↔
        t ∈ fileTokens doc.2 ∧
        stringsContains t "\x7b" = false ∧ stringsContains t "\x7d" = false ∧
        ∃ term ∈ stringsSplit q ' ',
          stringsContains (stringsToLower U t) (stringsToLower U term) = true) ∧
    (∀ doc : String × Node, (listedTokens U q doc).Sublist (fileTokens doc.2)) ∧
    (∀ (doc : String × Node) (t : String), t ∈ listedTokens U q doc →
      (listedTokens U q doc).count t = (fileTokens doc.2).count t) ∧
    (∀ (name text : String),
      fileTokens (.file name (some text)) =
        ((wordsFrom text.data []).takeWhile fitsBuffer).map (fun w => w.1)) ∧
    (∀ node : Node,
      fileTokens node <+: documentWords node ∧
      (∀ t ∈ fileTokens node, byteLen t < maxScanTokenSize) ∧
      ((∀ w ∈ documentWords node, byteLen w + 4 ≤ maxScanTokenSize) →
        fileTokens node = documentWords node) ∧
      (fileTokens node = documentWords node ∨
        ∃ w, (fileTokens node ++ [w]) <+: documentWords node ∧
          maxScanTokenSize < byteLen w + 4)) := by
  refine ⟨serveQuery_paired U templates q
    (fun doc dm => dm.MatchingWords = "Contains: " ++ stringsJoin (listedTokens U q doc) ", ")
    (fun doc _ => rfl), ?_, fun doc => List.filter_sublist _, ?_, fun _ _ => rfl,
    fileTokens_scanned⟩
  · intro doc t
    simp [listedTokens, tokenListed, queryTerms, and_assoc]
  · intro doc t ht
    have hp : tokenListed U q t = true := (List.mem_filter.1 ht).2
    simp only [listedTokens]
    rw [List.count_filter hp]

/-- C2, refuted as stated: the document `templates/foo/index.html` holds a
word of 65536 bytes and then the word `cat`, which has no brace and contains
the query term `cat`; the results for the query `cat` are the placeholder
alone, without the document. -/
theorem serveQuery_document_behind_long_word :
    serveQuery asciiTables (fooTreeOf (afterWord maxScanTokenSize)) "cat" =
      some { FoundDocuments := [noResults "cat"] } ∧
    indexFiles (fooTreeOf (afterWord maxScanTokenSize)) =
      [fooDocumentOf (afterWord maxScanTokenSize)] ∧
    documentWords (fooDocumentOf (afterWord maxScanTokenSize)).2 = [longWord, "cat"] ∧
    byteLen longWord = 65536 ∧
    stringsContains "cat" "\x7b" = false ∧ stringsContains "cat" "\x7d" = false ∧
    stringsSplit "cat" ' ' = ["cat"] ∧
    stringsContains (stringsToLower asciiTables "cat") (stringsToLower asciiTables "cat") = true :=
  ⟨serveQuery_afterWord asciiTables "cat" maxScanTokenSize (Nat.le_refl _), rfl,
    allWords_afterWord maxScanTokenSize maxScanTokenSize_pos,
    byteLen_wordOfSize maxScanTokenSize, by decide, by decide, by decide, by decide⟩

/-- C2, amended: an index document is among the results of `serveQuery`
exactly when one of the tokens the scanner reads from it contains no brace
and case-insensitively contains a space-separated query term; the matching
documents appear once each, in enumeration order, each as the
`DocumentMatch` built for it, which is never the placeholder; and the query
`cat dog` returns every document from which the scanner reads the token
`Catalog`. The tokens the scanner reads are the words of the document up to
the first word that does not fit its buffer of 64 KiB; they are all its
words when each has at most 65532 bytes. -/
theorem serveQuery_found_documents (U : UnicodeTables) (templates : List Node) (q : String) :
    (∃ data, serveQuery U templates q = some data ∧
      ((matchingDocuments U templates q = [] ∧ data.FoundDocuments = [noResults q]) ∨
        (matchingDocuments U templates q ≠ [] ∧
          List.Forall₂
            (fun doc dm => documentMatch U doc.1 (listedTokens U q doc) = some dm)
            (matchingDocuments U templates q) data.FoundDocuments))) ∧
    (∀ doc, doc ∈ matchingDocuments U templates q ↔
      doc ∈ indexFiles templates ∧ ∃ t ∈ fileTokens doc.2,
        stringsContains t "\x7b" = false ∧ stringsContains t "\x7d" = false ∧
        ∃ term ∈ stringsSplit q ' ',
          stringsContains (stringsToLower U t) (stringsToLower U term) = true) ∧
    (matchingDocuments U templates q).Sublist (indexFiles templates) ∧
    (∀ (doc : String × Node) (dm : DocumentMatch),
      documentMatch U doc.1 (listedTokens U q doc) = some dm → dm ≠ noResults q) ∧
    (∃ data, serveQuery U templates "cat dog" = some data ∧
      ∀ doc ∈ indexFiles templates, "Catalog" ∈ fileTokens doc.2 →
        ∃ dm ∈ data.FoundDocuments,
          documentMatch U doc.1 (listedTokens U "cat dog" doc) = some dm) ∧
    (∀ node : Node,
      fileTokens node <+: documentWords node ∧
      (∀ t ∈ fileTokens node, byteLen t < maxScanTokenSize) ∧
      ((∀ w ∈ documentWords node, byteLen w + 4 ≤ maxScanTokenSize) →
        fileTokens node = documentWords node) ∧
      (fileTokens node = documentWords node ∨
        ∃ w, (fileTokens node ++ [w]) <+: documentWords node ∧
          maxScanTokenSize < byteLen w + 4)) := by
  refine ⟨serveQuery_paired U templates q _
    (fun doc hdoc => documentMatch_of_matching U templates q doc hdoc), ?_,
    List.filter_sublist _, ?_, ?_, fileTokens_scanned⟩
  · intro doc
    simp [matchingDocuments, documentMatches, tokenListed, queryTerms, and_assoc]
  · intro doc dm hdm
    exact documentMatch_ne_noResults U q doc.1 _ dm hdm
  · refine ⟨_, serveQuery_eq U templates "cat dog", ?_⟩
    intro doc hdoc htok
    have hm : doc ∈ matchingDocuments U templates "cat dog" := by
      simp only [matchingDocuments, List.mem_filter, documentMatches, List.any_eq_true]
      exact ⟨hdoc, "Catalog", htok, tokenListed_catalog U⟩
    have hne : (matchingDocuments U templates "cat dog").isEmpty = false := by
      cases hl : matchingDocuments U templates "cat dog" with
      | nil => rw [hl] at hm; simp at hm
      | cons a l => rfl
    simp only [hne]
    exact ⟨_, List.mem_map_of_mem _ hm, documentMatch_of_matching U templates "cat dog" doc hm⟩

/-- C3, refuted as stated: the document `templates/foo/index.html` holds a
word of 65536 bytes and then the word `cat`, a matching token for the query
`CAT`; the results for that query are the placeholder all the same. -/
theorem serveQuery_placeholder_despite_match :
    (∃ doc ∈ indexFiles (fooTreeOf (afterWord maxScanTokenSize)),
      ∃ t ∈ documentWords doc.2, tokenListed asciiTables "CAT" t = true) ∧
    serveQuery asciiTables (fooTreeOf (afterWord maxScanTokenSize)) "CAT" =
      some { FoundDocuments :=
        [{ Name := "", Path := "#", MatchingWords := "No results found for \"CAT\"." }] } := by
  refine ⟨⟨fooDocumentOf (afterWord maxScanTokenSize), List.mem_singleton.2 rfl, "cat", ?_,
    tokenListed_CAT⟩, serveQuery_afterWord asciiTables "CAT" maxScanTokenSize (Nat.le_refl _)⟩
  have hw : documentWords (fooDocumentOf (afterWord maxScanTokenSize)).2 =
      [wordOfSize maxScanTokenSize, "cat"] :=
    allWords_afterWord maxScanTokenSize maxScanTokenSize_pos
  rw [hw]
  exact List.mem_cons_of_mem _ (List.mem_singleton.2 rfl)

/-- C3, amended: when the scanner reads no matching token from any index
document the results of `serveQuery` are the single placeholder with empty
name, path `#` and the words `No results found for "q".` around the raw
query string; when it reads one from some document, the placeholder is not
among the results. The tokens the scanner reads are the words of the
document up to the first word that does not fit its buffer of 64 KiB; they
are all its words when each has at most 65532 bytes. -/
theorem serveQuery_placeholder (U : UnicodeTables) (templates : List Node) (q : String) :
    (∃ data, serveQuery U templates q = some data ∧
      ((∀ doc ∈ indexFiles templates, ∀ t ∈ fileTokens doc.2, tokenListed U q t = false) →
        data.FoundDocuments =
          [{ Name := "", Path := "#",
             MatchingWords := "No results found for \"" ++ q ++ "\"." }]) ∧
      ((∃ doc ∈ indexFiles templates, ∃ t ∈ fileTokens doc.2, tokenListed U q t = true) →
        ∀ dm ∈ data.FoundDocuments,
          dm ≠ { Name := "", Path := "#",
                 MatchingWords := "No results found for \"" ++ q ++ "\"." })) ∧
    (∀ t : String, tokenListed U q t = true ↔
      stringsContains t "\x7b" = false ∧ stringsContains t "\x7d" = false ∧
      ∃ term ∈ stringsSplit q ' ',
        stringsContains (stringsToLower U t) (stringsToLower U term) = true) ∧
    (∀ node : Node,
      fileTokens node <+: documentWords node ∧
      (∀ t ∈ fileTokens node, byteLen t < maxScanTokenSize) ∧
      ((∀ w ∈ documentWords node, byteLen w + 4 ≤ maxScanTokenSize) →
        fileTokens node = documentWords node) ∧
      (fileTokens node = documentWords node ∨
        ∃ w, (fileTokens node ++ [w]) <+: documentWords node ∧
          maxScanTokenSize < byteLen w + 4)) := by
  refine ⟨⟨_, serveQuery_eq U templates q, ?_, ?_⟩, ?_, fileTokens_scanned⟩
  · intro hnone
    have hempty : matchingDocuments U templates q = [] := by
      simp only [matchingDocuments, List.filter_eq_nil_iff, documentMatches, List.any_eq_true]
      rintro doc hdoc ⟨t, ht, hl⟩
      rw [hnone doc hdoc t ht] at hl
      exact Bool.noConfusion hl
    simp [hempty, noResults]
  · rintro ⟨doc, hdoc, t, ht, hl⟩ dm hdm
    have hm : doc ∈ matchingDocuments U templates q := by
      simp only [matchingDocuments, List.mem_filter, documentMatches, List.any_eq_true]
      exact ⟨hdoc, t, ht, hl⟩
    have hne : (matchingDocuments U templates q).isEmpty = false := by
      cases hl : matchingDocuments U templates q with
      | nil => rw [hl] at hm; simp at hm
      | cons a l => rfl
    simp only [hne] at hdm
    obtain ⟨d, _, rfl⟩ := List.mem_map.1 hdm
    exact matchOf_ne_noResults U q q d
  · intro t
    simp [tokenListed, queryTerms, and_assoc]

/-- C4, refuted as stated: the documents `templates/a/templates/index.html`
and `templates/home/index.html` both match the query `cat`, neither lies at
the template root, and both results are named `Home`. -/
theorem serveQuery_home_not_only_root :
    serveQuery asciiTables homeTree "cat" =
      some { FoundDocuments :=
        [{ Name := "Home", Path := "/a/templates/", MatchingWords := "Contains: cat" },
         { Name := "Home", Path := "/home/", MatchingWords := "Contains: cat" }] } ∧
    (matchingDocuments asciiTables homeTree "cat").map (fun doc => doc.1) =
      ["templates/a/templates/index.html", "templates/home/index.html"] ∧
    atTemplateRoot "templates/a/templates/index.html" = false ∧
    atTemplateRoot "templates/home/index.html" = false := by
  decide

/-- C4, amended: the result for a matching document has as `Name` the
capitalised part before the last of its slash-normalised path, which is the
name of its parent directory when neither that name nor the name of the file
holds a backslash, except that the `Name` is `Home` when that capitalised
part is `Templates`; so a document at the template root whose file name
holds no backslash is named `Home`, the one at `templates/foo/index.html`
is named `Foo` and the one at `templates/index.html` is named `Home`. -/
theorem serveQuery_name (U : UnicodeTables) (templates : List Node) (q : String) :
    ∃ data, serveQuery U templates q = some data ∧
      ((matchingDocuments U templates q = [] ∧ data.FoundDocuments = [noResults q]) ∨
        (matchingDocuments U templates q ≠ [] ∧
          List.Forall₂
            (fun doc dm =>
              dm.Name = (if stringsTitle U (parentPart doc.1) = "Templates" then "Home"
                else stringsTitle U (parentPart doc.1)) ∧
              (∀ d, IsParentDirectory d doc.1 →
                parentPart doc.1 = d ∧
                dm.Name = if stringsTitle U d = "Templates" then "Home" else stringsTitle U d) ∧
              (atTemplateRoot doc.1 = true → dm.Name = "Home") ∧
              (doc.1 = "templates/foo/index.html" → dm.Name = "Foo") ∧
              (doc.1 = "templates/index.html" → dm.Name = "Home"))
            (matchingDocuments U templates q) data.FoundDocuments)) := by
  apply serveQuery_paired
  intro doc _
  have key : ∀ d, IsParentDirectory d doc.1 → parentPart doc.1 = d ∧ (matchOf U q doc).Name =
      if stringsTitle U d = "Templates" then "Home" else stringsTitle U d := by
    intro d hd
    refine ⟨parts_parent d doc.1 hd, ?_⟩
    simp only [matchOf, parts_parent d doc.1 hd]
  refine ⟨rfl, key, ?_, ?_, ?_⟩
  · intro hroot
    rw [(key "templates" (parent_of_atTemplateRoot doc.1 hroot)).2, title_templates]
    rfl
  · intro hfoo
    have hp : IsParentDirectory "foo" doc.1 :=
      ⟨by decide, "index.html", by decide, Or.inr ⟨"templates", by rw [hfoo]; decide⟩⟩
    rw [(key "foo" hp).2, title_foo]
    rfl
  · intro hidx
    have hroot : atTemplateRoot doc.1 = true := by rw [hidx]; decide
    rw [(key "templates" (parent_of_atTemplateRoot doc.1 hroot)).2, title_templates]
    rfl

/-- C10: the result for a matching document whose slash-normalised path is
`templates` + `m` + `index.html`, with `m` beginning and ending with a
slash, has exactly `m` as `Path`. -/
theorem serveQuery_path (U : UnicodeTables) (templates : List Node) (q : String)
    (doc : String × Node) (m : String)
    (hdoc : doc ∈ matchingDocuments U templates q)
    (hpath : slashPath doc.1 = "templates" ++ m ++ "index.html")
    (hhead : m.data.head? = some '/') (hlast : m.data.getLast? = some '/') :
    ∃ data, serveQuery U templates q = some data ∧
      List.Forall₂
        (fun d dm =>
          documentMatch U d.1 (listedTokens U q d) = some dm ∧ (d = doc → dm.Path = m))
        (matchingDocuments U templates q) data.FoundDocuments := by
  refine ⟨_, serveQuery_eq U templates q, ?_⟩
  have hne : ¬ (matchingDocuments U templates q).isEmpty = true := by
    cases hl : matchingDocuments U templates q with
    | nil => rw [hl] at hdoc; simp at hdoc
    | cons a l => simp
  rw [if_neg hne, List.forall₂_map_right_iff, List.forall₂_same]
  intro d hd
  refine ⟨documentMatch_of_matching U templates q d hd, ?_⟩
  intro e
  subst e
  exact trimmed_path d.1 m hpath hhead hlast

/-- The document `templates/foo/index.html` matches the query `cat` and its
result has the path `/foo/`. -/
theorem serveQuery_path_witness :
    ∃ data, serveQuery asciiTables fooTree "cat" = some data ∧
      List.Forall₂
        (fun d dm =>
          documentMatch asciiTables d.1 (listedTokens asciiTables "cat" d) = some dm ∧
          (d = ("templates/foo/index.html", .file "index.html" (some "a Catalog")) →
            dm.Path = "/foo/"))
        (matchingDocuments asciiTables fooTree "cat") data.FoundDocuments :=
  serveQuery_path asciiTables fooTree "cat"
    ("templates/foo/index.html", .file "index.html" (some "a Catalog")) "/foo/"
    (by rw [show matchingDocuments asciiTables fooTree "cat" =
          [("templates/foo/index.html", .file "index.html" (some "a Catalog"))] from rfl]
        exact List.mem_singleton.2 rfl)
    (by decide) (by decide) (by decide)

/-! ## The claims on `serveGalleryPage` and `serveTemplate` -/

/-- C5: in the detail mode of `serveGalleryPage`, column one is the first
half (rounded down) of the collected filenames and column two the rest: the
two columns in turn give the list back, column two is as long as column one
or one longer, both are empty for no filename, and one filename goes to
column two. -/
theorem serveGalleryPage_columns (U : UnicodeTables) (url : String) (gallery : List Node)
    (target : Option Node) (images : List String)
    (hurl : url ≠ "/gallery/") (himages : listGalleryImages url target = some images) :
    ∃ data, serveGalleryPage U url true gallery target = some (.layout data) ∧
      data.ImageColumnOne = images.take (images.length / 2) ∧
      data.ImageColumnTwo = images.drop (images.length / 2) ∧
      data.ImageColumnOne.length = images.length / 2 ∧
      data.ImageColumnTwo.length = images.length - images.length / 2 ∧
      data.ImageColumnOne ++ data.ImageColumnTwo = images ∧
      (data.ImageColumnTwo.length = data.ImageColumnOne.length ∨
        data.ImageColumnTwo.length = data.ImageColumnOne.length + 1) ∧
      (images = [] → data.ImageColumnOne = [] ∧ data.ImageColumnTwo = []) ∧
      (∀ x, images = [x] → data.ImageColumnOne = [] ∧ data.ImageColumnTwo = [x]) := by
  refine ⟨_, by simp [serveGalleryPage, hurl, himages]; rfl, rfl, rfl, ?_, ?_, ?_, ?_, ?_, ?_⟩
  · simp; omega
  · simp
  · simp
  · simp; omega
  · rintro rfl; simp
  · rintro x rfl; simp

/-- Three filenames collected under `static/gallery/cats` are laid out as
one and two. -/
theorem serveGalleryPage_columns_witness :
    ∃ data, serveGalleryPage asciiTables "/gallery/cats/" true []
        (some (.dir "cats" [.file "a.png" none, .file "b.png" none, .file "c.png" none])) =
        some (.layout data) ∧
      data.ImageColumnOne = ["a.png", "b.png", "c.png"].take (["a.png", "b.png", "c.png"].length / 2) ∧
      data.ImageColumnTwo = ["a.png", "b.png", "c.png"].drop (["a.png", "b.png", "c.png"].length / 2) ∧
      data.ImageColumnOne.length = ["a.png", "b.png", "c.png"].length / 2 ∧
      data.ImageColumnTwo.length =
        ["a.png", "b.png", "c.png"].length - ["a.png", "b.png", "c.png"].length / 2 ∧
      data.ImageColumnOne ++ data.ImageColumnTwo = ["a.png", "b.png", "c.png"] ∧
      (data.ImageColumnTwo.length = data.ImageColumnOne.length ∨
        data.ImageColumnTwo.length = data.ImageColumnOne.length + 1) ∧
      (["a.png", "b.png", "c.png"] = [] → data.ImageColumnOne = [] ∧ data.ImageColumnTwo = []) ∧
      (∀ x, ["a.png", "b.png", "c.png"] = [x] →
        data.ImageColumnOne = [] ∧ data.ImageColumnTwo = [x]) :=
  serveGalleryPage_columns asciiTables "/gallery/cats/" []
    (some (.dir "cats" [.file "a.png" none, .file "b.png" none, .file "c.png" none]))
    ["a.png", "b.png", "c.png"] (by decide) (by decide)

/-- C6, refuted as stated: for the path `/blog`, with the directory
`static/blog` and no template `templates/blog/index.html`, `serveTemplate`
hands the directory to `http.ServeFile` and does not answer 404. -/
theorem serveTemplate_directory_without_template :
    isGalleryRequest "/blog" = false ∧
    blogWithoutTemplate.stat (staticPath "/blog") = .found true ∧
    blogWithoutTemplate.stat (templatePath "/blog") = .notExist ∧
    serveTemplate blogWithoutTemplate "/blog" = .serveFile "static/blog" ∧
    serveTemplate blogWithoutTemplate "/blog" ≠ .serveNotFound := by
  decide

/-- C6, amended: for a request path not handed to the gallery handler,
`serveTemplate` answers 404 through `serveNotFound` when `os.Stat` of the
path under `static` fails with the error "does not exist"; and when
`os.Stat` finds a directory there and `os.Stat` of the `index.html` template
at the path under `templates` fails with the error "does not exist", it
does not answer through `serveNotFound` but calls `http.ServeFile` on the
path of the directory under `static`. -/
theorem serveTemplate_not_found (fs : FileSystem) (url : String)
    (hg : isGalleryRequest url = false) :
    (fs.stat (staticPath url) = .notExist → serveTemplate fs url = .serveNotFound) ∧
    (fs.stat (staticPath url) = .found true → fs.stat (templatePath url) = .notExist →
      serveTemplate fs url = .serveFile (staticPath url) ∧
      serveTemplate fs url ≠ .serveNotFound) := by
  simp only [isGalleryRequest] at hg
  constructor
  · intro h
    simp only [staticPath] at h
    simp [serveTemplate, hg, h]
  · intro h1 h2
    simp only [staticPath, templatePath] at h1 h2
    simp [serveTemplate, hg, h1, h2, staticPath]

/-- The path `/missing` is answered with 404 and, for the path `/blog`, a
directory without a template, `http.ServeFile` is called on `static/blog`. -/
theorem serveTemplate_not_found_witness :
    isGalleryRequest "/missing" = false ∧ isGalleryRequest "/blog" = false ∧
    serveTemplate blogWithoutTemplate "/missing" = .serveNotFound ∧
    serveTemplate blogWithoutTemplate "/blog" = .serveFile (staticPath "/blog") ∧
    serveTemplate blogWithoutTemplate "/blog" ≠ .serveNotFound :=
  ⟨by decide, by decide,
   (serveTemplate_not_found blogWithoutTemplate "/missing" (by decide)).1 (by decide),
   (serveTemplate_not_found blogWithoutTemplate "/blog" (by decide)).2 (by decide) (by decide)⟩

/-- C7, the failing input: for the path `/blog`, with the directory
`static/blog` and a lookup of `templates/blog/index.html` that fails with
an error other than "does not exist", `serveTemplate` writes nothing, and
so does not answer 500. -/
theorem serveTemplate_template_stat_error :
    isGalleryRequest "/blog" = false ∧
    blogTemplateDenied.stat (staticPath "/blog") = .found true ∧
    blogTemplateDenied.stat (templatePath "/blog") = .otherError ∧
    serveTemplate blogTemplateDenied "/blog" = .nothing ∧
    serveTemplate blogTemplateDenied "/blog" ≠ .serveInternalError := by
  decide

/-- The answer 500 of `serveTemplate` comes from the lookup under `static`
alone: it is given exactly when that lookup fails with an error other than
"does not exist". -/
theorem serveTemplate_serveInternalError_iff (fs : FileSystem) (url : String) :
    serveTemplate fs url = .serveInternalError ↔
      isGalleryRequest url = false ∧ fs.stat (staticPath url) = .otherError := by
  simp only [serveTemplate, isGalleryRequest, staticPath]
  cases hg : (stringsHasPrefix url "/gallery/" && !stringsContains url ".")
  · cases hs : fs.stat (filepathJoin ["static", filepathClean url]) with
    | found isDir =>
      cases isDir
      · simp
      · cases ht : fs.stat (filepathJoin ["templates", filepathClean url, "index.html"]) with
        | found b =>
          cases hp : fs.parseFiles (filepathJoin ["templates", "layout.html"])
            (filepathJoin ["templates", filepathClean url, "index.html"]) <;> simp
        | notExist => simp
        | otherError => simp
    | notExist => simp
    | otherError => simp
  · simp

/-! ## Lemmas on the walks of the blog and the gallery -/

theorem indexText_file (n : String) (c : Option String) : indexText (.file n c) = none := rfl

theorem blogVisit_eq (U : UnicodeTables) (links : List BlogLink) (v : String × Node) :
    blogVisit U links v =
      if (v.2.isDir && !stringsContains v.2.name "." && v.2.name != "blog" &&
          (indexText v.2).isSome) = true then
        links ++ [{ Name := stringsTitle U v.2.name, Path := v.2.name ++ "/",
                    Text := (indexText v.2).getD "" }]
      else links := by
  obtain ⟨path, node⟩ := v
  cases node with
  | file n c => simp [blogVisit, openIndex, Node.isDir]
  | dir n es =>
    simp only [blogVisit, indexText, Node.isDir, Node.name, Bool.true_and]
    cases ho : openIndex (.dir n es) with
    | notOpened => simp
    | notRead => simp
    | text t =>
      by_cases hc : (!stringsContains n "." && n != "blog") = true
      · simp [hc]
      · simp [hc]

theorem foldl_blogVisit (U : UnicodeTables) (visits : List (String × Node))
    (links : List BlogLink) :
    visits.foldl (blogVisit U) links =
      links ++ (visits.filter (fun v => v.2.isDir && !stringsContains v.2.name "." &&
          v.2.name != "blog" && (indexText v.2).isSome)).map
        (fun v => { Name := stringsTitle U v.2.name, Path := v.2.name ++ "/",
                    Text := (indexText v.2).getD "" }) := by
  induction visits generalizing links with
  | nil => simp
  | cons v rest ih =>
    rw [List.foldl_cons, ih, blogVisit_eq, List.filter_cons]
    split <;> simp

theorem collectionWalk_eq (U : UnicodeTables) (visits : List (String × Node))
    (links : List CollectionLink)
    (h : ∀ v ∈ visits.filter
        (fun v => !stringsContains v.2.name "." && v.2.name != "gallery"),
      readdirnames v.2 ≠ []) :
    collectionWalk U visits links =
      some (links ++ (visits.filter
          (fun v => !stringsContains v.2.name "." && v.2.name != "gallery")).map
        (fun v => { Name := stringsTitle U v.2.name, Path := v.2.name ++ "/",
                    Image := (readdirnames v.2).headD "",
                    ImgCount := (readdirnames v.2).length })) := by
  induction visits generalizing links with
  | nil => simp [collectionWalk]
  | cons v rest ih =>
    by_cases hc : (!stringsContains v.2.name "." && v.2.name != "gallery") = true
    · have hv : readdirnames v.2 ≠ [] := h v (by simp [List.filter_cons, hc])
      have hrest : ∀ w ∈ rest.filter
          (fun v => !stringsContains v.2.name "." && v.2.name != "gallery"),
          readdirnames w.2 ≠ [] := by
        intro w hw
        exact h w (by rw [List.filter_cons, if_pos hc]; exact List.mem_cons_of_mem _ hw)
      cases hr : readdirnames v.2 with
      | nil => exact absurd hr hv
      | cons first more =>
        simp only [collectionWalk, collectionVisit, hc, if_true, hr]
        rw [ih _ hrest, List.filter_cons, if_pos hc]
        simp [hr]
    · have hrest : ∀ w ∈ rest.filter
          (fun v => !stringsContains v.2.name "." && v.2.name != "gallery"),
          readdirnames w.2 ≠ [] := by
        intro w hw
        exact h w (by rw [List.filter_cons, if_neg hc]; exact hw)
      have hc' : (!stringsContains v.2.name "." && v.2.name != "gallery") = false := by
        simpa using hc
      simp only [collectionWalk, collectionVisit, hc', Bool.false_eq_true, if_false]
      rw [ih _ hrest, List.filter_cons, if_neg hc]

theorem isDir_of_readdirnames (n : Node) (h : readdirnames n ≠ []) : n.isDir = true := by
  cases n with
  | file name c => exact absurd rfl h
  | dir name es => rfl

/-! ## The claims on `blogPostLinks` and `imageGalleryCollectionLinks` -/

/-- C8, refuted as stated: the only immediate subdirectory of the blog root
is `post`, and `blogPostLinks` returns a link for it and a second link for
the directory `img` nested inside it. -/
theorem blogPostLinks_nested_directory :
    immediateSubdirectories nestedBlog = ["post"] ∧
    blogPostLinks asciiTables nestedBlog =
      [{ Name := "Post", Path := "post/", Text := "hello" },
       { Name := "Img", Path := "img/", Text := "x" }] := by
  decide

/-- C8, amended: `blogPostLinks` returns exactly one link, in walk order,
for each directory at any depth under the blog root whose name has no dot
and is not `blog` and whose `index.html` can be opened and read, and no
other link; the link has the capitalised directory name as `Name`, the
directory name followed by a slash as `Path` and the full content of that
`index.html` as `Text`. -/
theorem blogPostLinks_links (U : UnicodeTables) (blog : List Node) :
    List.Forall₂
        (fun v link =>
          link.Name = stringsTitle U v.2.name ∧ link.Path = v.2.name ++ "/" ∧
          indexText v.2 = some link.Text)
        (blogDirectories blog) (blogPostLinks U blog) ∧
    (∀ v ∈ blogDirectories blog,
      v ∈ walk (filepathJoin ["static", "blog"]) (.dir "blog" blog) ∧ v.2.isDir = true ∧
      stringsContains v.2.name "." = false ∧ v.2.name ≠ "blog" ∧
      ∃ text, indexText v.2 = some text) ∧
    (∀ v ∈ walk (filepathJoin ["static", "blog"]) (.dir "blog" blog),
      v.2.isDir = true → stringsContains v.2.name "." = false → v.2.name ≠ "blog" →
      (∃ text, indexText v.2 = some text) → v ∈ blogDirectories blog) := by
  refine ⟨?_, ?_, ?_⟩
  · simp only [blogPostLinks, foldl_blogVisit, List.nil_append, blogDirectories]
    rw [List.forall₂_map_right_iff, List.forall₂_same]
    intro v hv
    have hs : (indexText v.2).isSome = true := by
      have := (List.mem_filter.1 hv).2
      simp only [Bool.and_eq_true] at this
      exact this.2
    obtain ⟨t, ht⟩ := Option.isSome_iff_exists.1 hs
    simp [ht]
  · intro v hv
    have h := List.mem_filter.1 hv
    obtain ⟨hw, hc⟩ := h
    simp only [Bool.and_eq_true, Bool.not_eq_true', bne_iff_ne, ne_eq] at hc
    exact ⟨hw, hc.1.1.1, hc.1.1.2, hc.1.2, Option.isSome_iff_exists.1 hc.2⟩
  · intro v hw h1 h2 h3 h4
    simp only [blogDirectories, List.mem_filter, Bool.and_eq_true, Bool.not_eq_true',
      bne_iff_ne, ne_eq]
    exact ⟨hw, ⟨⟨h1, h2⟩, h3⟩, Option.isSome_iff_exists.2 h4⟩

/-- C9, refuted as stated: the only immediate subdirectory of the gallery
root is `cats`, and `imageGalleryCollectionLinks` returns a link for it and
a second link for the directory `more` nested inside it. -/
theorem imageGalleryCollectionLinks_nested_directory :
    immediateSubdirectories nestedGallery = ["cats"] ∧
    imageGalleryCollectionLinks asciiTables nestedGallery =
      some [{ Name := "Cats", Path := "cats/", Image := "a.png", ImgCount := 2 },
            { Name := "More", Path := "more/", Image := "b.png", ImgCount := 1 }] := by
  decide

/-- C9, amended: when every entry under the gallery root, at any depth,
whose name has no dot and is not `gallery` is a directory with at least one
entry, `imageGalleryCollectionLinks` completes and returns exactly one
link, in walk order, for each such directory and no other link; the link
has the number of entries of the directory as `ImgCount` and the first
entry of its listing as `Image`. -/
theorem imageGalleryCollectionLinks_links (U : UnicodeTables) (gallery : List Node)
    (h : ∀ v ∈ galleryCollections gallery, readdirnames v.2 ≠ []) :
    ∃ links, imageGalleryCollectionLinks U gallery = some links ∧
      List.Forall₂
        (fun v link =>
          v.2.isDir = true ∧
          link.Name = stringsTitle U v.2.name ∧ link.Path = v.2.name ++ "/" ∧
          (readdirnames v.2).head? = some link.Image ∧
          link.ImgCount = (readdirnames v.2).length)
        (galleryCollections gallery) links := by
  refine ⟨_, collectionWalk_eq U _ [] h, ?_⟩
  simp only [List.nil_append]
  rw [List.forall₂_map_right_iff]
  show List.Forall₂ _ (galleryCollections gallery) (galleryCollections gallery)
  rw [List.forall₂_same]
  intro v hv
  have hne := h v hv
  refine ⟨isDir_of_readdirnames v.2 hne, rfl, rfl, ?_, rfl⟩
  cases hr : readdirnames v.2 with
  | nil => exact absurd hr hne
  | cons first more => rfl

/-- The gallery with the collection `cats` and the directory `more` inside
it gets a link for each of the two. -/
theorem imageGalleryCollectionLinks_links_witness :
    ∃ links, imageGalleryCollectionLinks asciiTables nestedGallery = some links ∧
      List.Forall₂
        (fun v link =>
          v.2.isDir = true ∧
          link.Name = stringsTitle asciiTables v.2.name ∧ link.Path = v.2.name ++ "/" ∧
          (readdirnames v.2).head? = some link.Image ∧
          link.ImgCount = (readdirnames v.2).length)
        (galleryCollections nestedGallery) links :=
  imageGalleryCollectionLinks_links asciiTables nestedGallery (by
    intro v hv
    rw [show galleryCollections nestedGallery =
      [("static/gallery/cats",
          .dir "cats" [.file "a.png" (some ""), .dir "more" [.file "b.png" (some "")]]),
       ("static/gallery/cats/more", .dir "more" [.file "b.png" (some "")])] from rfl] at hv
    simp only [List.mem_cons, List.mem_singleton, List.not_mem_nil, or_false] at hv
    rcases hv with rfl | rfl <;> simp [readdirnames])

/-- A collection without entries stops `imageGalleryCollectionLinks` with a
run-time panic, and so does a file whose name has no dot. -/
theorem imageGalleryCollectionLinks_panics :
    imageGalleryCollectionLinks asciiTables [.dir "empty" []] = none ∧
    imageGalleryCollectionLinks asciiTables [.file "README" (some "")] = none := by
  decide

end Server
